import Mathlib

/-!
Verification development for the mcp-bento MCP gateway.

The definitions below are a shallow embedding of the TypeScript sources:
the profile resolver (`profile.ts`), the per-request cleanup manager
(`cleanupManager.ts`), the HTTP dispatcher (`server.ts`), and the stdio
connector (`stdioConnector.ts`).  JavaScript `Map`s (which preserve
insertion order) are modelled as association lists (`OMap`), upstream
connectors as records describing how their async methods respond, thrown
`McpError`s as `Except` results, and `logger.warn` calls as explicit lists
of log records threaded through the functions that emit them.
-/

namespace Bento

/-- The MCP error codes used by the gateway sources. -/
inductive ErrCode
  | invalidRequest
  | methodNotFound
  | internalError
deriving DecidableEq, Repr

/-- `McpError` from the MCP SDK: a code and a message. -/
structure McpError where
  code : ErrCode
  message : String
deriving DecidableEq, Repr

/-- A JavaScript `Map<string, α>`: an association list that preserves
insertion order.  `Map.get/has/set` are `omapFind?`, `omapContains`,
`omapSet` below. -/
abbrev OMap (α : Type) : Type := List (String × α)

/-- `Map.get(k)`: the value at the first (and only) binding of `k`. -/
def omapFind? {α : Type} (m : OMap α) (k : String) : Option α :=
  match m with
  | [] => none
  | p :: rest => if p.1 == k then some p.2 else omapFind? rest k

/-- `Map.has(k)`. -/
def omapContains {α : Type} (m : OMap α) (k : String) : Bool :=
  m.any (fun p => p.1 == k)

/-- `Map.set(k, v)`: replaces in place when the key is present, else
appends (JS maps keep the original insertion position on overwrite). -/
def omapSet {α : Type} (m : OMap α) (k : String) (v : α) : OMap α :=
  if omapContains m k then
    m.map (fun p => if p.1 == k then (k, v) else p)
  else
    m ++ [(k, v)]

/-- The keys of the map, in insertion order. -/
def omapKeys {α : Type} (m : OMap α) : List String :=
  m.map Prod.fst

/-- `Array.from(m.values())`. -/
def omapValues {α : Type} (m : OMap α) : List α :=
  m.map Prod.snd

/-- A map whose exported keys are pairwise distinct. -/
def NodupKeys {α : Type} (m : OMap α) : Prop :=
  (omapKeys m).Nodup

/-- The `prefix` field of a profile selection: a string, the literal
`false`, or absent.  (The TypeScript field is named `prefix`, which is a
Lean keyword, hence `prefixValue` here.) -/
inductive PrefixValue
  | absent
  | str (s : String)
  | explicitFalse
deriving DecidableEq, Repr

/-- `ProfileConfig` (schema.ts): a profile entry's selection record. -/
structure ProfileConfig where
  tools : Option (List String)
  prompts : Option (List String)
  prefixValue : PrefixValue
deriving DecidableEq, Repr

/-- A selection with every field absent (`{}` in the config). -/
def emptySelection : ProfileConfig := ⟨none, none, .absent⟩

/-- A tool descriptor; `extra` stands for the fields other than `name`
that the object spread `{...tool, name}` copies along. -/
structure Tool where
  name : String
  extra : String
deriving DecidableEq, Repr

/-- A prompt descriptor, as `Tool`. -/
structure Prompt where
  name : String
  extra : String
deriving DecidableEq, Repr

/-- How a connector's `listTools`/`listPrompts` responds: a list, an
`McpError` with code method-not-found, or some other failure. -/
inductive ListingResult (α : Type)
  | ok (items : List α)
  | methodNotFound
  | failed (msg : String)
deriving DecidableEq, Repr

/-- An upstream connector, described by its identity and how its async
methods respond.  `ensureReadyError = some e` models `ensureReady()`
rejecting with error `e`. -/
structure Connector where
  id : String
  ensureReadyError : Option String
  toolListing : ListingResult Tool
  promptListing : ListingResult Prompt
deriving DecidableEq, Repr

/-- `ToolEntry` (profile.ts). -/
structure ToolEntry where
  connector : Connector
  tool : Tool
  originalName : String
deriving DecidableEq, Repr

/-- `PromptEntry` (profile.ts). -/
structure PromptEntry where
  connector : Connector
  prompt : Prompt
  originalName : String
deriving DecidableEq, Repr

/-- `HttpServerConfig` (schema.ts). -/
structure HttpServerConfig where
  url : String
  headers : Option (OMap String)
deriving DecidableEq, Repr

/-- `StdioServerConfig` (schema.ts). -/
structure StdioServerConfig where
  command : String
  args : Option (List String)
  env : Option (OMap String)
deriving DecidableEq, Repr

/-- `McpServerConfig` (schema.ts): a tagged server descriptor. -/
inductive McpServerConfig
  | http (c : HttpServerConfig)
  | stdio (c : StdioServerConfig)
deriving DecidableEq, Repr

/-- `Config` (types.ts): listen address, server descriptors, profiles.
Record iteration order (`Object.entries`) is the list order. -/
structure Config where
  listen : String
  mcpServers : OMap McpServerConfig
  profiles : OMap (OMap ProfileConfig)
deriving DecidableEq, Repr

/-- A `logger.warn({err, serverId, profile}, msg)` record. -/
structure LogRecord where
  err : Option String
  serverId : Option String
  profileName : String
  message : String
deriving DecidableEq, Repr

/-- `ConnectorRegistry` (connectors/index.ts): connectors keyed by
server id. -/
abbrev ConnectorRegistry : Type := OMap Connector

/-- `ConnectorRegistry.get`: the connector, or a thrown invalid-request
`McpError` for an unknown id. -/
def registryGet (reg : ConnectorRegistry) (id : String) : Except McpError Connector :=
  match omapFind? reg id with
  | some c => .ok c
  | none => .error ⟨.invalidRequest, "Unknown server id " ++ id⟩

/-- `toAllowlist` (profile.ts) builds a `Set` from the optional list; the
set is modelled by the list itself (membership is what is used). -/
def toAllowlist (values : Option (List String)) : Option (List String) :=
  values

/-- `resolvePrefixValue` (profile.ts): `false` means the empty prefix,
absent means the fallback. -/
def resolvePrefixValue (value : PrefixValue) (fallback : String) : String :=
  match value with
  | .explicitFalse => ""
  | .str s => s
  | .absent => fallback

/-- `shouldInclude` (profile.ts): no allowlist admits every name. -/
def shouldInclude (allowlist : Option (List String)) (name : String) : Bool :=
  allowlist.isNone || (allowlist.getD []).contains name

/-- `mergeEntries` (profile.ts): fold the upstream items into `target`,
skipping names the allowlist excludes and exported names already taken
(first occurrence wins). -/
def mergeEntries {α β : Type} (items : List α) (target : OMap β)
    (allowlist : Option (List String)) (pfx : String)
    (getName : α → String) (createEntry : α → String → β) : OMap β :=
  match items with
  | [] => target
  | item :: rest =>
    let name := getName item
    if shouldInclude allowlist name then
      let exportedName := pfx ++ name
      if omapContains target exportedName then
        mergeEntries rest target allowlist pfx getName createEntry
      else
        mergeEntries rest (omapSet target exportedName (createEntry item exportedName))
          allowlist pfx getName createEntry
    else
      mergeEntries rest target allowlist pfx getName createEntry

/-- `ResolutionResult` (profile.ts): the two ordered maps a resolved
profile consists of. -/
structure ResolutionResult where
  tools : OMap ToolEntry
  prompts : OMap PromptEntry
deriving DecidableEq, Repr

/-- What `handleServerEntry` leaves behind: the updated maps and the
warnings it logged. -/
structure ServerEntryOut where
  tools : OMap ToolEntry
  prompts : OMap PromptEntry
  logs : List LogRecord
deriving DecidableEq, Repr

/-- `handleServerEntry` (profile.ts): ensure the connector is ready (on
failure log one warning and contribute nothing), then merge its tool and
prompt listings, downgrading method-not-found to an empty list and any
other listing failure to an empty list plus a warning. -/
def handleServerEntry (profileName serverId : String) (selection : ProfileConfig)
    (connector : Connector) (tools : OMap ToolEntry) (prompts : OMap PromptEntry) :
    ServerEntryOut :=
  match connector.ensureReadyError with
  | some e =>
    ⟨tools, prompts, [⟨some e, some serverId, profileName, "Failed to initialize connector"⟩]⟩
  | none =>
    let toolAllowlist := toAllowlist selection.tools
    let promptAllowlist := toAllowlist selection.prompts
    let pfx := resolvePrefixValue selection.prefixValue (serverId ++ "__")
    let serverTools : List Tool × List LogRecord :=
      match connector.toolListing with
      | .ok ts => (ts, [])
      | .methodNotFound => ([], [])
      | .failed e => ([], [⟨some e, some serverId, profileName, "Failed to list tools"⟩])
    let tools2 := mergeEntries serverTools.1 tools toolAllowlist pfx
      (fun t => t.name)
      (fun t exportedName => ⟨connector, ⟨exportedName, t.extra⟩, t.name⟩)
    let serverPrompts : List Prompt × List LogRecord :=
      match connector.promptListing with
      | .ok ps => (ps, [])
      | .methodNotFound => ([], [])
      | .failed e => ([], [⟨some e, some serverId, profileName, "Failed to list prompts"⟩])
    let prompts2 := mergeEntries serverPrompts.1 prompts promptAllowlist pfx
      (fun p => p.name)
      (fun p exportedName => ⟨connector, ⟨exportedName, p.extra⟩, p.name⟩)
    ⟨tools2, prompts2, serverTools.2 ++ serverPrompts.2⟩

/-- `mergeNestedProfile` (profile.ts): merge an already-resolved nested
profile; allowlists are matched against the nested exported names, the
default prefix is empty, and connector and original name are carried over
unchanged. -/
def mergeNestedProfile (selection : ProfileConfig) (nested : ResolutionResult)
    (tools : OMap ToolEntry) (prompts : OMap PromptEntry) : ResolutionResult :=
  let toolAllowlist := toAllowlist selection.tools
  let promptAllowlist := toAllowlist selection.prompts
  let pfx := resolvePrefixValue selection.prefixValue ""
  let tools2 := mergeEntries nested.tools tools toolAllowlist pfx
    (fun e => e.1)
    (fun e exportedName => ⟨e.2.connector, ⟨exportedName, e.2.tool.extra⟩, e.2.originalName⟩)
  let prompts2 := mergeEntries nested.prompts prompts promptAllowlist pfx
    (fun e => e.1)
    (fun e exportedName => ⟨e.2.connector, ⟨exportedName, e.2.prompt.extra⟩, e.2.originalName⟩)
  ⟨tools2, prompts2⟩

/-- The outcome of a `resolveRecursive` call: the returned (or thrown)
result, the resolver cache after the call, the shared visited stack after
the call (the source mutates it and restores it in a `finally`), and the
warnings logged during the call. -/
structure ResolveOut where
  result : Except McpError ResolutionResult
  cache : OMap ResolutionResult
  stack : List String
  logs : List LogRecord
deriving Repr

/-- The entry loop of `resolveRecursive` (profile.ts): process the
profile's entries in definition order.  A server entry goes through
`handleServerEntry`; an entry naming another profile recurses via `rec`
(the caller passes the resolver at the next fuel level) and merges; any
other entry name throws invalid-request.  Errors propagate immediately. -/
def resolveEntries (cfg : Config) (reg : ConnectorRegistry)
    (rec : String → List String → OMap ResolutionResult → ResolveOut)
    (profileName : String) :
    List (String × ProfileConfig) → ResolutionResult → List String →
    OMap ResolutionResult → List LogRecord → ResolveOut
  | [], acc, stack, cache, logs => ⟨.ok acc, cache, stack, logs⟩
  | (entryName, selection) :: rest, acc, stack, cache, logs =>
    if omapContains cfg.mcpServers entryName then
      match registryGet reg entryName with
      | .error e => ⟨.error e, cache, stack, logs⟩
      | .ok connector =>
        let srv := handleServerEntry profileName entryName selection connector
          acc.tools acc.prompts
        resolveEntries cfg reg rec profileName rest ⟨srv.tools, srv.prompts⟩
          stack cache (logs ++ srv.logs)
    else if omapContains cfg.profiles entryName then
      let child := rec entryName stack cache
      match child.result with
      | .error e => ⟨.error e, child.cache, child.stack, logs ++ child.logs⟩
      | .ok nested =>
        resolveEntries cfg reg rec profileName rest
          (mergeNestedProfile selection nested acc.tools acc.prompts)
          child.stack child.cache (logs ++ child.logs)
    else
      ⟨.error ⟨.invalidRequest,
        "Unknown server or profile '" ++ entryName ++ "' referenced by profile '"
          ++ profileName ++ "'"⟩, cache, stack, logs⟩

/-- `ProfileResolver.resolveRecursive` (profile.ts).  The extra `fuel`
argument only bounds the recursion depth for Lean's termination checker;
the cycle check keeps actual executions within `cfg.profiles.length + 1`
nested calls, so `resolve` below supplies fuel that is never exhausted.
Cached profiles return immediately; a name already on the visited stack
throws the cycle error; an unknown profile throws; otherwise the entries
are processed, the result is cached, and the `finally`-pop is modelled by
`dropLast` on every exit after the push. -/
def resolveRecursive (cfg : Config) (reg : ConnectorRegistry) :
    Nat → String → List String → OMap ResolutionResult → ResolveOut
  | 0, _, stack, cache =>
    ⟨.error ⟨.internalError, "resolver fuel exhausted"⟩, cache, stack, []⟩
  | fuel + 1, profileName, stack, cache =>
    match omapFind? cache profileName with
    | some cached => ⟨.ok cached, cache, stack, []⟩
    | none =>
      if stack.contains profileName then
        ⟨.error ⟨.invalidRequest,
          "Circular profile reference detected: "
            ++ String.intercalate " -> " (stack ++ [profileName])⟩,
          cache, stack, []⟩
      else
        let pushed := stack ++ [profileName]
        match omapFind? cfg.profiles profileName with
        | none =>
          ⟨.error ⟨.invalidRequest, "Unknown profile: " ++ profileName⟩,
            cache, pushed.dropLast, []⟩
        | some profileConfig =>
          let out := resolveEntries cfg reg (resolveRecursive cfg reg fuel)
            profileName profileConfig ⟨[], []⟩ pushed cache []
          match out.result with
          | .ok result =>
            ⟨.ok result, omapSet out.cache profileName result, out.stack.dropLast, out.logs⟩
          | .error e => ⟨.error e, out.cache, out.stack.dropLast, out.logs⟩

/-- Fuel that `resolveRecursive` can never exhaust: the visited stack
grows by one distinct profile name per nested call. -/
def resolveFuel (cfg : Config) : Nat :=
  cfg.profiles.length + 2

/-- `ProfileResolver.resolve` (profile.ts): resolve with an empty visited
stack against the resolver's current cache. -/
def resolve (cfg : Config) (reg : ConnectorRegistry)
    (cache : OMap ResolutionResult) (profileName : String) : ResolveOut :=
  resolveRecursive cfg reg (resolveFuel cfg) profileName [] cache

/-- A `Profile` (profile.ts): name plus the two resolved maps. -/
structure Profile where
  name : String
  tools : OMap ToolEntry
  prompts : OMap PromptEntry
deriving DecidableEq, Repr

/-- The precomputed `toolList`: the descriptors in resolution order. -/
def Profile.listTools (p : Profile) : List Tool :=
  (omapValues p.tools).map (fun e => e.tool)

/-- The precomputed `promptList`. -/
def Profile.listPrompts (p : Profile) : List Prompt :=
  (omapValues p.prompts).map (fun e => e.prompt)

/-- `CallToolRequest['params']`: the tool name plus the untouched rest of
the request parameters that the spread `{...params, name}` copies. -/
structure CallToolParams where
  name : String
  arguments : OMap String
  meta : Option String
deriving DecidableEq, Repr

/-- `GetPromptRequest['params']`. -/
structure GetPromptParams where
  name : String
  arguments : OMap String
deriving DecidableEq, Repr

/-- `Profile.callTool` (profile.ts), with the upstream call abstracted:
`impl c q` stands for `c.callTool(q)` and its value is returned verbatim.
A name missing from the tools map throws method-not-found without
consulting any connector (the result does not depend on `impl`). -/
def Profile.callToolWith {ρ : Type} (impl : Connector → CallToolParams → ρ)
    (p : Profile) (params : CallToolParams) : Except McpError ρ :=
  match omapFind? p.tools params.name with
  | none => .error ⟨.methodNotFound, "Unknown tool: " ++ params.name⟩
  | some entry => .ok (impl entry.connector ⟨entry.originalName, params.arguments, params.meta⟩)

/-- `Profile.getPrompt` (profile.ts), symmetric to `callToolWith`. -/
def Profile.getPromptWith {ρ : Type} (impl : Connector → GetPromptParams → ρ)
    (p : Profile) (params : GetPromptParams) : Except McpError ρ :=
  match omapFind? p.prompts params.name with
  | none => .error ⟨.methodNotFound, "Unknown prompt: " ++ params.name⟩
  | some entry => .ok (impl entry.connector ⟨entry.originalName, params.arguments⟩)

/-- `Profile.create` (profile.ts): resolve with a fresh resolver (empty
cache) and wrap the maps; the logs are those of the resolution. -/
def Profile.create (cfg : Config) (reg : ConnectorRegistry) (profileName : String) :
    Except McpError Profile × List LogRecord :=
  let out := resolve cfg reg [] profileName
  match out.result with
  | .ok r => (.ok ⟨profileName, r.tools, r.prompts⟩, out.logs)
  | .error e => (.error e, out.logs)

/-! ### Cleanup manager (cleanupManager.ts)

The manager is modelled as a state machine: `cmStep` interprets one
external operation (a `register` or `watchEmitter` call, a direct `run`
call, or an emitter firing one of its events) and reports the observable
effects (the warning log, the listener detachments, the callback
invocations) as a trace. -/

/-- The observable effects of the cleanup manager. -/
inductive CMEffect
  | warnCause
  | detach (emitter : Nat) (event : String)
  | invoke (callback : Nat)
deriving DecidableEq, Repr

/-- CleanupManager's mutable state: the one-shot flag, the registered
callbacks (as opaque ids, in order) and the recorded subscriptions. -/
structure CMState where
  cleanedUp : Bool
  callbacks : List Nat
  listeners : List (Nat × String)
deriving DecidableEq, Repr

/-- A fresh manager. -/
def cmInit : CMState := ⟨false, [], []⟩

/-- The operations driving a cleanup manager.  `watchEmitter none _`
models an emitter without subscription support (the source's
`typeof emitter.on !== 'function'` guard); `emit` models a watched
emitter firing, `arg = some e` standing for an `Error` first argument. -/
inductive CMOp
  | register (cb : Nat)
  | watchEmitter (emitter : Option Nat) (events : List String)
  | runOp (cause : Option String)
  | emit (emitter : Nat) (event : String) (arg : Option String)
deriving DecidableEq, Repr

/-- `CleanupManager.run`: a no-op once `cleanedUp` is set; otherwise it
sets the flag, warns when the cause is an error, detaches every recorded
subscription and then invokes every registered callback. -/
def cmRun (s : CMState) (cause : Option String) : CMState × List CMEffect :=
  if s.cleanedUp then (s, [])
  else
    (⟨true, s.callbacks, []⟩,
      (match cause with | some _ => [CMEffect.warnCause] | none => [])
        ++ s.listeners.map (fun l => CMEffect.detach l.1 l.2)
        ++ s.callbacks.map CMEffect.invoke)

/-- One step of the manager.  An `emit` invokes, in order, every listener
recorded for that emitter and event (the snapshot the runtime takes when
the event fires); each listener calls `run` with the error argument as
cause, and the one-shot guard makes all but the first call no-ops. -/
def cmStep (s : CMState) (op : CMOp) : CMState × List CMEffect :=
  match op with
  | .register cb => (⟨s.cleanedUp, s.callbacks ++ [cb], s.listeners⟩, [])
  | .watchEmitter none _ => (s, [])
  | .watchEmitter (some em) events =>
    (⟨s.cleanedUp, s.callbacks, s.listeners ++ events.map (fun ev => (em, ev))⟩, [])
  | .runOp cause => cmRun s cause
  | .emit em ev arg =>
    (s.listeners.filter (fun l => l.1 == em && l.2 == ev)).foldl
      (fun acc _ =>
        let r := cmRun acc.1 arg
        (r.1, acc.2 ++ r.2))
      (s, [])

/-- Run a whole operation sequence, concatenating the effect traces. -/
def cmFold (s : CMState) : List CMOp → CMState × List CMEffect
  | [] => (s, [])
  | op :: rest =>
    let r := cmStep s op
    let r2 := cmFold r.1 rest
    (r2.1, r.2 ++ r2.2)

/-- The trace the claim predicts: nothing until the first operation that
triggers cleanup; that operation warns if its cause is an error, detaches
every subscription recorded so far, and invokes every callback registered
so far, exactly once; everything after it is ignored. -/
def cmSpecTrace : List CMOp → List Nat → List (Nat × String) → List CMEffect
  | [], _, _ => []
  | op :: rest, regs, watched =>
    match op with
    | .register cb => cmSpecTrace rest (regs ++ [cb]) watched
    | .watchEmitter none _ => cmSpecTrace rest regs watched
    | .watchEmitter (some em) events =>
      cmSpecTrace rest regs (watched ++ events.map (fun ev => (em, ev)))
    | .runOp cause =>
      (match cause with | some _ => [CMEffect.warnCause] | none => [])
        ++ watched.map (fun l => CMEffect.detach l.1 l.2) ++ regs.map CMEffect.invoke
    | .emit em ev arg =>
      if watched.any (fun l => l.1 == em && l.2 == ev) then
        (match arg with | some _ => [CMEffect.warnCause] | none => [])
          ++ watched.map (fun l => CMEffect.detach l.1 l.2) ++ regs.map CMEffect.invoke
      else
        cmSpecTrace rest regs watched

/-! ### HTTP dispatcher (server.ts) -/

/-- A pre-transport HTTP response: a JSON-RPC error envelope with an HTTP
status, or the marker that the MCP transport took over the stream. -/
inductive HttpOut
  | jsonError (status : Nat) (code : ErrCode) (message : String)
  | handled
deriving DecidableEq, Repr

/-- An inbound request as the dispatcher sees it: method, path, and the
`profile` query parameter (absent or its raw value). -/
structure HttpRequest where
  method : String
  path : String
  profileQuery : Option String
deriving DecidableEq, Repr

/-- `ValidationResult` (server.ts). -/
inductive ValidationResult
  | ok (profileName : String) (method : String)
  | err (response : HttpOut)
deriving DecidableEq, Repr

/-- `ALLOWED_METHODS` (server.ts). -/
def allowedMethods : List String := ["POST", "GET", "DELETE"]

/-- `validateRequest` (server.ts): 405 for a method outside the allowed
set, 400 when the `profile` query parameter is missing or empty (the
source tests JS falsiness of the string). -/
def validateRequest (req : HttpRequest) : ValidationResult :=
  if !(allowedMethods.contains req.method) then
    .err (.jsonError 405 .invalidRequest "Method not allowed")
  else
    match req.profileQuery with
    | none => .err (.jsonError 400 .invalidRequest "Missing profile query parameter")
    | some p =>
      if p == "" then .err (.jsonError 400 .invalidRequest "Missing profile query parameter")
      else .ok p req.method

/-- The `/mcp` handler (server.ts): validate, resolve the profile (a
failure becomes a 400 JSON error via `toMcpError`/`jsonErrorResponse`),
then hand the streams to the transport (`handled`).
`resolveProfile` abstracts `Profile.create` over the live config. -/
def mcpHandler (resolveProfile : String → Except McpError Unit)
    (req : HttpRequest) : HttpOut :=
  match validateRequest req with
  | .err resp => resp
  | .ok profileName _ =>
    match resolveProfile profileName with
    | .error e => .jsonError 400 e.code e.message
    | .ok _ => .handled

/-- The Hono route table built by `createApp` (server.ts): the handler is
registered for POST, GET and DELETE on `/mcp`, then a catch-all
(`app.all('*')`) returns the 404 JSON error.  `none` is the ALL method. -/
def appRoutes : List (Option String × String) :=
  [(some "POST", "/mcp"), (some "GET", "/mcp"), (some "DELETE", "/mcp"), (none, "*")]

/-- Whether a route matches a request: the method must equal the route's
(or the route is ALL), the path must equal the route's (or it is `*`). -/
def routeMatches (method path : String) (route : Option String × String) : Bool :=
  (match route.1 with | none => true | some m => m == method)
    && (route.2 == "*" || route.2 == path)

/-- The whole app (server.ts): dispatch to the first matching route; the
catch-all responds with the 404 invalid-request JSON error, the `/mcp`
routes run the handler.  (The catch-all matches every request, so the
fallback arm is unreachable; it mirrors Hono's built-in 404.) -/
def appRespond (resolveProfile : String → Except McpError Unit)
    (req : HttpRequest) : HttpOut :=
  match appRoutes.find? (routeMatches req.method req.path) with
  | some route =>
    if route.2 == "*" then .jsonError 404 .invalidRequest "Not found"
    else mcpHandler resolveProfile req
  | none => .jsonError 404 .invalidRequest "Not found"

/-! ### Stdio connector environment (stdioConnector.ts) -/

/-- The `env` option `StdioConnector.createTransport` passes to the SDK's
`StdioClientTransport`: a copy of the per-server overrides when present,
otherwise `undefined`. -/
def createTransportEnv (cfg : StdioServerConfig) : Option (OMap String) :=
  match cfg.env with
  | some e => some e
  | none => none

/-- Modelled from the spec: the child-process spawn performed by the
SDK's `StdioClientTransport` is not part of this repository's sources.
Section 4.1 of the spec states that the stdio variant "spawns `command`
with `args` and a sanitised environment that unions the parent
environment with per-server `env` overrides (overrides win)".  The union
is represented as the overrides followed by the parent entries whose keys
the overrides do not bind, so a lookup prefers the override. -/
def spawnedChildEnv (parentEnv : OMap String) (envOption : Option (OMap String)) :
    OMap String :=
  match envOption with
  | none => parentEnv
  | some ov => ov ++ parentEnv.filter (fun p => !(omapContains ov p.1))

/-- The environment of the spawned stdio child: the transport option
computed by the source, fed to the spec-modelled spawn. -/
def stdioSpawnEnv (parentEnv : OMap String) (cfg : StdioServerConfig) : OMap String :=
  spawnedChildEnv parentEnv (createTransportEnv cfg)

/-! ### Basic facts about ordered maps -/

theorem omapContains_iff_mem_keys {α : Type} (m : OMap α) (k : String) :
    omapContains m k = true ↔ k ∈ omapKeys m := by
  simp only [omapContains, omapKeys, List.any_eq_true, List.mem_map]
  constructor
  · rintro ⟨p, hp, hk⟩
    exact ⟨p, hp, beq_iff_eq.mp hk⟩
  · rintro ⟨p, hp, hk⟩
    exact ⟨p, hp, beq_iff_eq.mpr hk⟩

theorem omapFind?_append_left {α : Type} (m l : OMap α) (k : String)
    (h : omapContains m k = true) : omapFind? (m ++ l) k = omapFind? m k := by
  induction m with
  | nil => simp [omapContains] at h
  | cons p rest ih =>
    rw [List.cons_append]
    simp only [omapFind?]
    by_cases hp : (p.1 == k) = true
    · rw [if_pos hp, if_pos hp]
    · rw [if_neg hp, if_neg hp]
      rw [omapContains, List.any_cons] at h
      simp only [hp, Bool.false_or] at h
      exact ih h

theorem omapFind?_append_right {α : Type} (m l : OMap α) (k : String)
    (h : omapContains m k = false) : omapFind? (m ++ l) k = omapFind? l k := by
  induction m with
  | nil => simp
  | cons p rest ih =>
    rw [omapContains, List.any_cons] at h
    rcases Bool.or_eq_false_iff.mp h with ⟨h1, h2⟩
    rw [List.cons_append]
    simp only [omapFind?]
    rw [if_neg (by simp [h1])]
    exact ih h2

theorem omapContains_append {α : Type} (m l : OMap α) (k : String) :
    omapContains (m ++ l) k = (omapContains m k || omapContains l k) := by
  simp [omapContains, List.any_append]

theorem omapSet_of_not_contains {α : Type} (m : OMap α) (k : String) (v : α)
    (h : omapContains m k = false) : omapSet m k v = m ++ [(k, v)] := by
  simp [omapSet, h]

theorem omapKeys_append {α : Type} (m l : OMap α) :
    omapKeys (m ++ l) = omapKeys m ++ omapKeys l := by
  simp [omapKeys]

theorem omapContains_eq_false_iff {α : Type} (m : OMap α) (k : String) :
    omapContains m k = false ↔ k ∉ omapKeys m := by
  rw [← omapContains_iff_mem_keys]
  cases h : omapContains m k <;> simp [h]

/-! ### Facts about `mergeEntries` -/

theorem mergeEntries_find?_of_contains {α β : Type} (items : List α) (target : OMap β)
    (al : Option (List String)) (pfx : String) (gn : α → String) (ce : α → String → β)
    (k : String) (h : omapContains target k = true) :
    omapFind? (mergeEntries items target al pfx gn ce) k = omapFind? target k := by
  induction items generalizing target with
  | nil => rfl
  | cons item rest ih =>
    rw [mergeEntries]
    by_cases hinc : shouldInclude al (gn item) = true
    · rw [if_pos hinc]
      by_cases hc : omapContains target (pfx ++ gn item) = true
      · rw [if_pos hc]
        exact ih target h
      · rw [if_neg hc]
        rw [ih _ (by rw [omapSet_of_not_contains _ _ _ (by simpa using hc),
              omapContains_append, h, Bool.true_or])]
        rw [omapSet_of_not_contains _ _ _ (by simpa using hc)]
        exact omapFind?_append_left _ _ _ h
    · rw [if_neg hinc]
      exact ih target h

theorem mergeEntries_contains_of_contains {α β : Type} (items : List α) (target : OMap β)
    (al : Option (List String)) (pfx : String) (gn : α → String) (ce : α → String → β)
    (k : String) (h : omapContains target k = true) :
    omapContains (mergeEntries items target al pfx gn ce) k = true := by
  induction items generalizing target with
  | nil => exact h
  | cons item rest ih =>
    rw [mergeEntries]
    by_cases hinc : shouldInclude al (gn item) = true
    · rw [if_pos hinc]
      by_cases hc : omapContains target (pfx ++ gn item) = true
      · rw [if_pos hc]; exact ih target h
      · rw [if_neg hc]
        refine ih _ ?_
        rw [omapSet_of_not_contains _ _ _ (by simpa using hc), omapContains_append, h,
          Bool.true_or]
    · rw [if_neg hinc]; exact ih target h

theorem mergeEntries_keys_subset {α β : Type} (items : List α) (target : OMap β)
    (al : Option (List String)) (pfx : String) (gn : α → String) (ce : α → String → β)
    (k : String) (h : k ∈ omapKeys (mergeEntries items target al pfx gn ce)) :
    k ∈ omapKeys target ∨
      ∃ item ∈ items, shouldInclude al (gn item) = true ∧ k = pfx ++ gn item := by
  induction items generalizing target with
  | nil => exact Or.inl h
  | cons item rest ih =>
    rw [mergeEntries] at h
    by_cases hinc : shouldInclude al (gn item) = true
    · rw [if_pos hinc] at h
      by_cases hc : omapContains target (pfx ++ gn item) = true
      · rw [if_pos hc] at h
        rcases ih target h with h2 | ⟨it, hit, hi2, hk⟩
        · exact Or.inl h2
        · exact Or.inr ⟨it, List.mem_cons_of_mem _ hit, hi2, hk⟩
      · rw [if_neg hc] at h
        rcases ih _ h with h2 | ⟨it, hit, hi2, hk⟩
        · rw [omapSet_of_not_contains _ _ _ (by simpa using hc), omapKeys_append] at h2
          rcases List.mem_append.mp h2 with h3 | h3
          · exact Or.inl h3
          · simp only [omapKeys, List.map_cons, List.map_nil, List.mem_singleton] at h3
            exact Or.inr ⟨item, List.mem_cons_self _ _, hinc, h3⟩
        · exact Or.inr ⟨it, List.mem_cons_of_mem _ hit, hi2, hk⟩
    · rw [if_neg hinc] at h
      rcases ih target h with h2 | ⟨it, hit, hi2, hk⟩
      · exact Or.inl h2
      · exact Or.inr ⟨it, List.mem_cons_of_mem _ hit, hi2, hk⟩

theorem mergeEntries_empty_allowlist {α β : Type} (items : List α) (target : OMap β)
    (pfx : String) (gn : α → String) (ce : α → String → β) :
    mergeEntries items target (some []) pfx gn ce = target := by
  induction items with
  | nil => rfl
  | cons item rest ih =>
    rw [mergeEntries]
    have : shouldInclude (some []) (gn item) = false := by simp [shouldInclude]
    rw [if_neg (by simp [this])]
    exact ih

theorem mergeEntries_none_allowlist_mem {α β : Type} (items : List α) (target : OMap β)
    (pfx : String) (gn : α → String) (ce : α → String → β) (item : α)
    (h : item ∈ items) :
    (pfx ++ gn item) ∈ omapKeys (mergeEntries items target none pfx gn ce) := by
  induction items generalizing target with
  | nil => cases h
  | cons it rest ih =>
    rw [mergeEntries]
    have hinc : shouldInclude none (gn it) = true := by simp [shouldInclude]
    rw [if_pos hinc]
    rcases List.mem_cons.mp h with rfl | hmem
    · by_cases hc : omapContains target (pfx ++ gn item) = true
      · rw [if_pos hc]
        exact (omapContains_iff_mem_keys _ _).mp
          (mergeEntries_contains_of_contains _ _ _ _ _ _ _ hc)
      · rw [if_neg hc]
        refine (omapContains_iff_mem_keys _ _).mp
          (mergeEntries_contains_of_contains _ _ _ _ _ _ _ ?_)
        rw [omapSet_of_not_contains _ _ _ (by simpa using hc), omapContains_append]
        simp [omapContains]
    · by_cases hc : omapContains target (pfx ++ gn it) = true
      · rw [if_pos hc]; exact ih _ hmem
      · rw [if_neg hc]; exact ih _ hmem

theorem mergeEntries_nodupKeys {α β : Type} (items : List α) (target : OMap β)
    (al : Option (List String)) (pfx : String) (gn : α → String) (ce : α → String → β)
    (h : NodupKeys target) : NodupKeys (mergeEntries items target al pfx gn ce) := by
  induction items generalizing target with
  | nil => exact h
  | cons item rest ih =>
    rw [mergeEntries]
    by_cases hinc : shouldInclude al (gn item) = true
    · rw [if_pos hinc]
      by_cases hc : omapContains target (pfx ++ gn item) = true
      · rw [if_pos hc]; exact ih target h
      · rw [if_neg hc]
        refine ih _ ?_
        rw [omapSet_of_not_contains _ _ _ (by simpa using hc)]
        unfold NodupKeys at h ⊢
        rw [omapKeys_append]
        refine List.Nodup.append h (by simp [omapKeys]) ?_
        intro a ha hb
        simp only [omapKeys, List.map_cons, List.map_nil, List.mem_singleton] at hb
        subst hb
        exact (omapContains_eq_false_iff _ _).mp (by simpa using hc) ha
    · rw [if_neg hinc]; exact ih target h

theorem omapContains_eq_isSome_find? {α : Type} (m : OMap α) (k : String) :
    omapContains m k = (omapFind? m k).isSome := by
  induction m with
  | nil => rfl
  | cons p rest ih =>
    rw [omapContains, List.any_cons, omapFind?]
    by_cases hp : (p.1 == k) = true
    · rw [if_pos hp, hp, Bool.true_or, Option.isSome_some]
    · rw [if_neg hp, Bool.eq_false_iff.mpr hp, Bool.false_or, ← omapContains, ih]

theorem omapFind?_filter_key {α : Type} (l : OMap α) (keyPred : String → Bool)
    (k : String) (hk : keyPred k = true) :
    omapFind? (l.filter (fun p => keyPred p.1)) k = omapFind? l k := by
  induction l with
  | nil => rfl
  | cons p rest ih =>
    by_cases hp : (p.1 == k) = true
    · have hkeep : keyPred p.1 = true := by rw [beq_iff_eq.mp hp]; exact hk
      rw [List.filter_cons_of_pos (by simpa using hkeep)]
      simp only [omapFind?]
      rw [if_pos hp, if_pos hp]
    · by_cases hq : keyPred p.1 = true
      · rw [List.filter_cons_of_pos (by simpa using hq)]
        simp only [omapFind?]
        rw [if_neg hp, if_neg hp]
        exact ih
      · rw [List.filter_cons_of_neg (by simpa using hq)]
        simp only [omapFind?]
        rw [if_neg hp]
        exact ih

/-! ### The claims -/

/-- C2: `callTool` on a name absent from the tools map throws
method-not-found with message "Unknown tool: X" without consulting any
connector (the result is the same for every connector behaviour `implT`);
on a present name it forwards to the stored connector with `params.name`
replaced by the stored original name and the other parameters unchanged,
returning that connector's result (`implT`'s value) verbatim.
`getPrompt` behaves symmetrically over the prompts map. -/
theorem callTool_getPrompt_dispatch {ρ σ : Type}
    (implT : Connector → CallToolParams → ρ) (implP : Connector → GetPromptParams → σ)
    (p : Profile) (params : CallToolParams) (gparams : GetPromptParams) :
    (omapFind? p.tools params.name = none →
      Profile.callToolWith implT p params =
        .error ⟨.methodNotFound, "Unknown tool: " ++ params.name⟩) ∧
    (∀ entry : ToolEntry, omapFind? p.tools params.name = some entry →
      Profile.callToolWith implT p params =
        .ok (implT entry.connector ⟨entry.originalName, params.arguments, params.meta⟩)) ∧
    (omapFind? p.prompts gparams.name = none →
      Profile.getPromptWith implP p gparams =
        .error ⟨.methodNotFound, "Unknown prompt: " ++ gparams.name⟩) ∧
    (∀ entry : PromptEntry, omapFind? p.prompts gparams.name = some entry →
      Profile.getPromptWith implP p gparams =
        .ok (implP entry.connector ⟨entry.originalName, gparams.arguments⟩)) := by
  refine ⟨?_, ?_, ?_, ?_⟩
  · intro h
    rw [Profile.callToolWith, h]
  · intro entry h
    rw [Profile.callToolWith, h]
  · intro h
    rw [Profile.getPromptWith, h]
  · intro entry h
    rw [Profile.getPromptWith, h]

/-- A concrete connector for the dispatch witness. -/
def witConn : Connector := ⟨"alpha", none, .ok [], .ok []⟩

/-- A concrete resolved profile for the dispatch witness. -/
def witProfile : Profile :=
  ⟨"default",
    [("alpha__search", ⟨witConn, ⟨"alpha__search", "s"⟩, "search"⟩)],
    [("alpha__daily", ⟨witConn, ⟨"alpha__daily", "d"⟩, "daily"⟩)]⟩

/-- Witness for C2 at a concrete profile: a hit forwards with the
original name and untouched arguments, a miss errors. -/
theorem callTool_getPrompt_dispatch_witness :
    Profile.callToolWith (fun c q => (c, q)) witProfile ⟨"alpha__search", [("q", "1")], none⟩ =
      .ok (witConn, ⟨"search", [("q", "1")], none⟩) ∧
    Profile.callToolWith (fun c q => (c, q)) witProfile ⟨"missing", [], none⟩ =
      .error ⟨.methodNotFound, "Unknown tool: " ++ "missing"⟩ ∧
    Profile.getPromptWith (fun c q => (c, q)) witProfile ⟨"alpha__daily", [("a", "b")]⟩ =
      .ok (witConn, ⟨"daily", [("a", "b")]⟩) ∧
    Profile.getPromptWith (fun c q => (c, q)) witProfile ⟨"nope", []⟩ =
      .error ⟨.methodNotFound, "Unknown prompt: " ++ "nope"⟩ := by
  refine ⟨?_, ?_, ?_, ?_⟩
  · exact (callTool_getPrompt_dispatch (fun c q => (c, q)) (fun c q => (c, q))
      witProfile ⟨"alpha__search", [("q", "1")], none⟩ ⟨"x", []⟩).2.1
      ⟨witConn, ⟨"alpha__search", "s"⟩, "search"⟩ rfl
  · exact (callTool_getPrompt_dispatch (fun c q => (c, q)) (fun c q => (c, q))
      witProfile ⟨"missing", [], none⟩ ⟨"x", []⟩).1 rfl
  · exact (callTool_getPrompt_dispatch (fun c q => (c, q)) (fun c q => (c, q))
      witProfile ⟨"x", [], none⟩ ⟨"alpha__daily", [("a", "b")]⟩).2.2.2
      ⟨witConn, ⟨"alpha__daily", "d"⟩, "daily"⟩ rfl
  · exact (callTool_getPrompt_dispatch (fun c q => (c, q)) (fun c q => (c, q))
      witProfile ⟨"x", [], none⟩ ⟨"nope", []⟩).2.2.1 rfl

/-- C9: looking up any key in the environment of the spawned stdio child
yields the per-server override when the key is bound there and the parent
environment's value otherwise (overrides win; with no `env` block the
parent environment is used as is). -/
theorem stdioSpawnEnv_union_overrides_win (parentEnv : OMap String)
    (cfg : StdioServerConfig) (k : String) :
    omapFind? (stdioSpawnEnv parentEnv cfg) k =
      (match cfg.env with
       | some ov =>
         (match omapFind? ov k with
          | some v => some v
          | none => omapFind? parentEnv k)
       | none => omapFind? parentEnv k) := by
  cases henv : cfg.env with
  | none => simp [stdioSpawnEnv, createTransportEnv, spawnedChildEnv, henv]
  | some ov =>
    simp only [stdioSpawnEnv, createTransportEnv, spawnedChildEnv, henv]
    cases hf : omapFind? ov k with
    | some v =>
      rw [omapFind?_append_left _ _ _ (by rw [omapContains_eq_isSome_find?, hf]; rfl)]
      exact hf
    | none =>
      have hc : omapContains ov k = false := by
        rw [omapContains_eq_isSome_find?, hf]; rfl
      rw [omapFind?_append_right _ _ _ hc]
      exact omapFind?_filter_key parentEnv (fun x => !(omapContains ov x)) k
        (by simp only [hc, Bool.not_false])

theorem shouldInclude_some_iff (al : List String) (n : String) :
    shouldInclude (some al) n = true ↔ n ∈ al := by
  simp [shouldInclude]

/-- C5: `prefix: false` resolves exactly like `prefix: ""` at both the
server-entry and the nested-profile level; an absent prefix resolves to
`"<server-id>__"` for a server entry and to `""` for a nested-profile
entry; and every exported name a merge adds is the prefix concatenated
with the source-side name. -/
theorem prefix_false_equals_empty_and_defaults
    (ts ps : Option (List String)) (pn sid : String) (conn : Connector)
    (tools : OMap ToolEntry) (prompts : OMap PromptEntry) (nested : ResolutionResult) :
    (handleServerEntry pn sid ⟨ts, ps, .explicitFalse⟩ conn tools prompts =
      handleServerEntry pn sid ⟨ts, ps, .str ""⟩ conn tools prompts) ∧
    (mergeNestedProfile ⟨ts, ps, .explicitFalse⟩ nested tools prompts =
      mergeNestedProfile ⟨ts, ps, .str ""⟩ nested tools prompts) ∧
    (handleServerEntry pn sid ⟨ts, ps, .absent⟩ conn tools prompts =
      handleServerEntry pn sid ⟨ts, ps, .str (sid ++ "__")⟩ conn tools prompts) ∧
    (mergeNestedProfile ⟨ts, ps, .absent⟩ nested tools prompts =
      mergeNestedProfile ⟨ts, ps, .str ""⟩ nested tools prompts) ∧
    (∀ (β γ : Type) (items : List β) (target : OMap γ) (al : Option (List String))
      (pfx : String) (gn : β → String) (ce : β → String → γ) (k : String),
      k ∈ omapKeys (mergeEntries items target al pfx gn ce) →
      k ∈ omapKeys target ∨ ∃ it ∈ items, k = pfx ++ gn it) := by
  refine ⟨rfl, rfl, rfl, rfl, ?_⟩
  intro β γ items target al pfx gn ce k h
  rcases mergeEntries_keys_subset items target al pfx gn ce k h with h2 | ⟨it, hmem, _, hk⟩
  · exact Or.inl h2
  · exact Or.inr ⟨it, hmem, hk⟩

/-- Witness for C5: the exported-name-shape conjunct applied at a
concrete merge (the equality conjuncts are instances of the theorem's
`rfl` components). -/
theorem prefix_false_equals_empty_witness :
    "p__t" ∈ omapKeys ([] : OMap String) ∨
      ∃ it ∈ [(⟨"t", "x"⟩ : Tool)], "p__t" = "p__" ++ Tool.name it := by
  refine (prefix_false_equals_empty_and_defaults none none "pn" "sid" witConn [] []
    ⟨[], []⟩).2.2.2.2 Tool String [⟨"t", "x"⟩] [] none "p__" Tool.name
    (fun _ e => e) "p__t" ?_
  decide

/-- C4: allow-lists govern what an entry exports.  With a present
allow-list the exported tool names an entry adds all have the form
`prefix + t` for some `t` in the list (at the nested level `t` ranges
over nested exported names); an empty allow-list contributes nothing;
an absent allow-list admits every upstream tool (resp. every nested
exported name).  Prompts behave the same way via `selection.prompts`. -/
theorem allowlist_governs_exports
    (pn sid : String) (sel : ProfileConfig) (conn : Connector)
    (tools : OMap ToolEntry) (prompts : OMap PromptEntry)
    (nested : ResolutionResult) (al : List String) (k : String) (ts : List Tool) :
    (sel.tools = some al →
      k ∈ omapKeys (handleServerEntry pn sid sel conn tools prompts).tools →
      k ∈ omapKeys tools ∨
        ∃ t ∈ al, k = resolvePrefixValue sel.prefixValue (sid ++ "__") ++ t) ∧
    (sel.prompts = some al →
      k ∈ omapKeys (handleServerEntry pn sid sel conn tools prompts).prompts →
      k ∈ omapKeys prompts ∨
        ∃ t ∈ al, k = resolvePrefixValue sel.prefixValue (sid ++ "__") ++ t) ∧
    (sel.tools = some al →
      k ∈ omapKeys (mergeNestedProfile sel nested tools prompts).tools →
      k ∈ omapKeys tools ∨
        ∃ t ∈ al, k = resolvePrefixValue sel.prefixValue "" ++ t) ∧
    (sel.prompts = some al →
      k ∈ omapKeys (mergeNestedProfile sel nested tools prompts).prompts →
      k ∈ omapKeys prompts ∨
        ∃ t ∈ al, k = resolvePrefixValue sel.prefixValue "" ++ t) ∧
    ((handleServerEntry pn sid ⟨some [], sel.prompts, sel.prefixValue⟩
        conn tools prompts).tools = tools ∧
      (mergeNestedProfile ⟨some [], sel.prompts, sel.prefixValue⟩
        nested tools prompts).tools = tools) ∧
    (sel.tools = none → conn.ensureReadyError = none → conn.toolListing = .ok ts →
      ∀ t ∈ ts, (resolvePrefixValue sel.prefixValue (sid ++ "__") ++ t.name) ∈
        omapKeys (handleServerEntry pn sid sel conn tools prompts).tools) ∧
    (sel.tools = none → ∀ e ∈ nested.tools, (resolvePrefixValue sel.prefixValue "" ++ e.1) ∈
      omapKeys (mergeNestedProfile sel nested tools prompts).tools) := by
  obtain ⟨selT, selP, selPV⟩ := sel
  refine ⟨?_, ?_, ?_, ?_, ⟨?_, ?_⟩, ?_, ?_⟩
  · intro h1 h2
    cases hr : conn.ensureReadyError with
    | some e =>
      simp only [handleServerEntry, hr] at h2
      exact Or.inl h2
    | none =>
      simp only [handleServerEntry, hr] at h2
      simp only at h1
      subst h1
      rcases mergeEntries_keys_subset _ _ _ _ _ _ _ h2 with h3 | ⟨it, _, hinc, hk⟩
      · exact Or.inl h3
      · exact Or.inr ⟨Tool.name it, (shouldInclude_some_iff _ _).mp hinc, hk⟩
  · intro h1 h2
    cases hr : conn.ensureReadyError with
    | some e =>
      simp only [handleServerEntry, hr] at h2
      exact Or.inl h2
    | none =>
      simp only [handleServerEntry, hr] at h2
      simp only at h1
      subst h1
      rcases mergeEntries_keys_subset _ _ _ _ _ _ _ h2 with h3 | ⟨it, _, hinc, hk⟩
      · exact Or.inl h3
      · exact Or.inr ⟨Prompt.name it, (shouldInclude_some_iff _ _).mp hinc, hk⟩
  · intro h1 h2
    simp only at h1
    subst h1
    simp only [mergeNestedProfile] at h2
    rcases mergeEntries_keys_subset _ _ _ _ _ _ _ h2 with h3 | ⟨it, _, hinc, hk⟩
    · exact Or.inl h3
    · exact Or.inr ⟨it.1, (shouldInclude_some_iff _ _).mp hinc, hk⟩
  · intro h1 h2
    simp only at h1
    subst h1
    simp only [mergeNestedProfile] at h2
    rcases mergeEntries_keys_subset _ _ _ _ _ _ _ h2 with h3 | ⟨it, _, hinc, hk⟩
    · exact Or.inl h3
    · exact Or.inr ⟨it.1, (shouldInclude_some_iff _ _).mp hinc, hk⟩
  · cases hr : conn.ensureReadyError with
    | some e => simp only [handleServerEntry, hr]
    | none =>
      simp only [handleServerEntry, hr]
      exact mergeEntries_empty_allowlist _ _ _ _ _
  · simp only [mergeNestedProfile]
    exact mergeEntries_empty_allowlist _ _ _ _ _
  · intro h1 hr hl t ht
    simp only at h1
    subst h1
    simp only [handleServerEntry, hr, hl]
    exact mergeEntries_none_allowlist_mem _ _ _ _ _ _ ht
  · intro h1 e he
    simp only at h1
    subst h1
    simp only [mergeNestedProfile]
    exact mergeEntries_none_allowlist_mem _ _ _ _ _ _ he

/-- Witness for C4 at a concrete server entry: with allow-list
`["time"]` the only exported key is `alpha__time`, of the required
shape. -/
theorem allowlist_governs_exports_witness :
    "alpha__time" ∈ omapKeys ([] : OMap ToolEntry) ∨
      ∃ t ∈ ["time"], "alpha__time" =
        resolvePrefixValue PrefixValue.absent ("alpha" ++ "__") ++ t := by
  refine (allowlist_governs_exports "default" "alpha"
    ⟨some ["time"], none, .absent⟩
    ⟨"alpha", none, .ok [⟨"time", "x"⟩, ⟨"date", "x"⟩], .ok []⟩
    [] [] ⟨[], []⟩ ["time"] "alpha__time" []).1 rfl ?_
  decide

/-- Whether the character list `pat` occurs contiguously in the second
list. -/
def charsContain (pat : List Char) : List Char → Bool
  | [] => pat.isEmpty
  | c :: rest => pat.isPrefixOf (c :: rest) || charsContain pat rest

/-- Whether `pat` occurs inside `s` (substring containment). -/
def strContains (s pat : String) : Bool :=
  charsContain pat.data s.data

/-- Scenario E's connector: `ensureReady` rejects with "boom". -/
def alphaFailing : Connector :=
  ⟨"alpha", some "boom", .ok [⟨"search", "x"⟩], .ok [⟨"weekly", "x"⟩]⟩

/-- Scenario E's configuration: `default` consists solely of `alpha`. -/
def cfgScenarioE : Config :=
  ⟨"localhost:3003", [("alpha", .http ⟨"https://alpha.example", none⟩)],
    [("default", [("alpha", emptySelection)])]⟩

/-- Scenario E's registry. -/
def regScenarioE : ConnectorRegistry := [("alpha", alphaFailing)]

/-- C6: a server entry whose connector fails ensure-ready contributes
nothing: `handleServerEntry` returns the maps untouched plus exactly one
warning carrying the error, the server id and the profile name; the entry
loop then continues with the remaining entries; and a profile consisting
solely of such a server resolves successfully to empty tools and prompts
with that one warning logged (spec scenario E). -/
theorem ensureReady_failure_skips_entry
    (pn sid : String) (sel : ProfileConfig) (conn : Connector) (e : String)
    (tools : OMap ToolEntry) (prompts : OMap PromptEntry)
    (cfg : Config) (reg : ConnectorRegistry)
    (rec : String → List String → OMap ResolutionResult → ResolveOut)
    (rest : List (String × ProfileConfig)) (acc : ResolutionResult)
    (stack : List String) (cache : OMap ResolutionResult) (logs : List LogRecord) :
    (conn.ensureReadyError = some e →
      handleServerEntry pn sid sel conn tools prompts =
        ⟨tools, prompts, [⟨some e, some sid, pn, "Failed to initialize connector"⟩]⟩) ∧
    (conn.ensureReadyError = some e →
      omapContains cfg.mcpServers sid = true →
      registryGet reg sid = .ok conn →
      resolveEntries cfg reg rec pn ((sid, sel) :: rest) acc stack cache logs =
        resolveEntries cfg reg rec pn rest acc stack cache
          (logs ++ [⟨some e, some sid, pn, "Failed to initialize connector"⟩])) ∧
    ((resolve cfgScenarioE regScenarioE [] "default").result = .ok ⟨[], []⟩ ∧
      (resolve cfgScenarioE regScenarioE [] "default").logs =
        [⟨some "boom", some "alpha", "default", "Failed to initialize connector"⟩]) := by
  refine ⟨?_, ?_, rfl, rfl⟩
  · intro h
    simp only [handleServerEntry, h]
  · intro h hc hg
    simp only [resolveEntries, hc, if_pos, hg, handleServerEntry, h]

/-- Witness for C6 at the concrete failing connector. -/
theorem ensureReady_failure_skips_entry_witness :
    handleServerEntry "default" "alpha" emptySelection alphaFailing [] [] =
      ⟨[], [], [⟨some "boom", some "alpha", "default",
        "Failed to initialize connector"⟩]⟩ :=
  (ensureReady_failure_skips_entry "default" "alpha" emptySelection alphaFailing
    "boom" [] [] cfgScenarioE regScenarioE (fun _ st c => ⟨.ok ⟨[], []⟩, c, st, []⟩)
    [] ⟨[], []⟩ [] [] []).1 rfl

/-- C8 (code bug): `createApp` registers the `/mcp` handler only for
POST, GET and DELETE, so a request with any other method on `/mcp` falls
through to the catch-all route and is answered 404 "Not found" — the 405
"Method not allowed" branch of `validateRequest` is unreachable.  Other
paths are answered 404 as the claim states. -/
theorem method_not_allowed_routing :
    (∀ resolveProfile, appRespond resolveProfile ⟨"PATCH", "/mcp", some "default"⟩ =
      .jsonError 404 .invalidRequest "Not found") ∧
    validateRequest ⟨"PATCH", "/mcp", some "default"⟩ =
      .err (.jsonError 405 .invalidRequest "Method not allowed") ∧
    (∀ resolveProfile, appRespond resolveProfile ⟨"GET", "/other", some "default"⟩ =
      .jsonError 404 .invalidRequest "Not found") := by
  refine ⟨fun r => rfl, rfl, fun r => rfl⟩

/-- The loopA/loopB configuration of spec scenario F. -/
def cfgLoop : Config :=
  ⟨"localhost:3003", [],
    [("loopA", [("loopB", emptySelection)]),
     ("loopB", [("loopA", emptySelection)])]⟩

/-- C3 counterexample: this configuration contains the profile cycle
A -> B -> A (entry `B` of `A`, entry `A` of `B`), yet resolving `A` fails
on its earlier unknown entry `bogus`, with an invalid-request message
that does not contain the cycle path "A -> B -> A". -/
def cfgCycleUnknown : Config :=
  ⟨"localhost:3003", [],
    [("A", [("bogus", emptySelection), ("B", emptySelection)]),
     ("B", [("A", emptySelection)])]⟩

/-- C3 counterexample theorem: resolving a profile on a cycle can fail
with a message that does not render the cycle path. -/
theorem cycle_message_counterexample :
    (resolve cfgCycleUnknown [] [] "A").result =
      .error ⟨.invalidRequest,
        "Unknown server or profile 'bogus' referenced by profile 'A'"⟩ ∧
    strContains "Unknown server or profile 'bogus' referenced by profile 'A'"
      "A -> B -> A" = false := by
  exact ⟨rfl, by decide⟩

/-- C3 (amended): whenever resolution reaches a profile name that is
already on the visited stack (and has no cached result), it fails with
invalid-request whose message renders the visited names joined by " -> "
and ending with the repeated name; in particular resolving loopA in the
loopA/loopB configuration fails with a message containing
"loopA -> loopB -> loopA". -/
theorem cycle_detected_message
    (fuel : Nat) (cfg : Config) (reg : ConnectorRegistry) (name : String)
    (stack : List String) (cache : OMap ResolutionResult) :
    (omapFind? cache name = none → stack.contains name = true →
      (resolveRecursive cfg reg (fuel + 1) name stack cache).result =
        .error ⟨.invalidRequest, "Circular profile reference detected: "
          ++ String.intercalate " -> " (stack ++ [name])⟩) ∧
    ((resolve cfgLoop [] [] "loopA").result =
      .error ⟨.invalidRequest,
        "Circular profile reference detected: loopA -> loopB -> loopA"⟩ ∧
      strContains "Circular profile reference detected: loopA -> loopB -> loopA"
        "loopA -> loopB -> loopA" = true) := by
  refine ⟨?_, rfl, by decide⟩
  intro h1 h2
  simp only [resolveRecursive, h1, h2, if_pos]

/-- Witness for C3's amended theorem at a concrete stack hit. -/
theorem cycle_detected_message_witness :
    (resolveRecursive cfgLoop [] 1 "x" ["x"] []).result =
      .error ⟨.invalidRequest, "Circular profile reference detected: "
        ++ String.intercalate " -> " (["x"] ++ ["x"])⟩ :=
  (cycle_detected_message 0 cfgLoop [] "x" ["x"] []).1 rfl rfl

theorem omapFind?_replace_ne {α : Type} (m : OMap α) (k n : String) (v : α)
    (h : k ≠ n) :
    omapFind? (m.map (fun p => if p.1 == k then (k, v) else p)) n = omapFind? m n := by
  induction m with
  | nil => rfl
  | cons p rest ih =>
    rw [List.map_cons]
    by_cases hp : (p.1 == k) = true
    · rw [if_pos hp]
      simp only [omapFind?]
      rw [if_neg (by simpa using h), if_neg (by
        rw [beq_iff_eq.mp hp]; simpa using h)]
      exact ih
    · rw [if_neg hp]
      simp only [omapFind?]
      by_cases hn : (p.1 == n) = true
      · rw [if_pos hn, if_pos hn]
      · rw [if_neg hn, if_neg hn]
        exact ih

theorem omapFind?_replace_eq {α : Type} (m : OMap α) (k : String) (v : α)
    (h : omapContains m k = true) :
    omapFind? (m.map (fun p => if p.1 == k then (k, v) else p)) k = some v := by
  induction m with
  | nil => simp [omapContains] at h
  | cons p rest ih =>
    rw [List.map_cons]
    by_cases hp : (p.1 == k) = true
    · rw [if_pos hp]
      simp only [omapFind?]
      rw [if_pos (beq_iff_eq.mpr rfl)]
    · rw [if_neg hp]
      simp only [omapFind?]
      rw [if_neg hp]
      rw [omapContains, List.any_cons] at h
      simp only [hp, Bool.false_or] at h
      exact ih h

theorem omapFind?_omapSet {α : Type} (m : OMap α) (k : String) (v : α) (n : String) :
    omapFind? (omapSet m k v) n = if k = n then some v else omapFind? m n := by
  rw [omapSet]
  by_cases hc : omapContains m k = true
  · rw [if_pos hc]
    by_cases hkn : k = n
    · subst hkn
      rw [if_pos rfl]
      exact omapFind?_replace_eq m k v hc
    · rw [if_neg hkn]
      exact omapFind?_replace_ne m k n v hkn
  · rw [if_neg hc]
    by_cases hkn : k = n
    · subst hkn
      rw [if_pos rfl, omapFind?_append_right _ _ _ (by simpa using hc)]
      simp [omapFind?]
    · rw [if_neg hkn]
      by_cases hm : omapContains m n = true
      · exact omapFind?_append_left _ _ _ hm
      · rw [omapFind?_append_right _ _ _ (by simpa using hm)]
        rw [omapFind?, if_neg (by simpa using hkn), omapFind?]
        rw [omapContains_eq_isSome_find?] at hm
        cases hf : omapFind? m n with
        | none => rfl
        | some w => rw [hf] at hm; simp at hm

/-- A resolver cache every entry of which has duplicate-free exported
names. -/
def CacheOK (cache : OMap ResolutionResult) : Prop :=
  ∀ n r, omapFind? cache n = some r → NodupKeys r.tools ∧ NodupKeys r.prompts

theorem cacheOK_nil : CacheOK [] := by
  intro n r h
  simp [omapFind?] at h

theorem handleServerEntry_nodup (pn sid : String) (sel : ProfileConfig)
    (conn : Connector) (tools : OMap ToolEntry) (prompts : OMap PromptEntry)
    (ht : NodupKeys tools) (hp : NodupKeys prompts) :
    NodupKeys (handleServerEntry pn sid sel conn tools prompts).tools ∧
      NodupKeys (handleServerEntry pn sid sel conn tools prompts).prompts := by
  cases hr : conn.ensureReadyError with
  | some e => simp only [handleServerEntry, hr]; exact ⟨ht, hp⟩
  | none =>
    simp only [handleServerEntry, hr]
    exact ⟨mergeEntries_nodupKeys _ _ _ _ _ _ ht, mergeEntries_nodupKeys _ _ _ _ _ _ hp⟩

theorem mergeNestedProfile_nodup (sel : ProfileConfig) (nested : ResolutionResult)
    (tools : OMap ToolEntry) (prompts : OMap PromptEntry)
    (ht : NodupKeys tools) (hp : NodupKeys prompts) :
    NodupKeys (mergeNestedProfile sel nested tools prompts).tools ∧
      NodupKeys (mergeNestedProfile sel nested tools prompts).prompts := by
  simp only [mergeNestedProfile]
  exact ⟨mergeEntries_nodupKeys _ _ _ _ _ _ ht, mergeEntries_nodupKeys _ _ _ _ _ _ hp⟩

theorem resolveEntries_nodup_cacheOK (cfg : Config) (reg : ConnectorRegistry)
    (rec : String → List String → OMap ResolutionResult → ResolveOut)
    (pn : String)
    (hrec : ∀ n st c, CacheOK c → CacheOK (rec n st c).cache) :
    ∀ (entries : List (String × ProfileConfig)) (acc : ResolutionResult)
      (stack : List String) (cache : OMap ResolutionResult) (logs : List LogRecord),
      CacheOK cache → NodupKeys acc.tools → NodupKeys acc.prompts →
      CacheOK (resolveEntries cfg reg rec pn entries acc stack cache logs).cache ∧
      (∀ r, (resolveEntries cfg reg rec pn entries acc stack cache logs).result = .ok r →
        NodupKeys r.tools ∧ NodupKeys r.prompts) := by
  intro entries
  induction entries with
  | nil =>
    intro acc stack cache logs hc hat hap
    refine ⟨hc, ?_⟩
    intro r hr
    simp only [resolveEntries] at hr
    cases hr
    exact ⟨hat, hap⟩
  | cons entry rest ih =>
    intro acc stack cache logs hc hat hap
    obtain ⟨entryName, selection⟩ := entry
    simp only [resolveEntries]
    by_cases hsrv : omapContains cfg.mcpServers entryName = true
    · rw [if_pos hsrv]
      cases hget : registryGet reg entryName with
      | error e =>
        refine ⟨hc, ?_⟩
        intro r hr
        cases hr
      | ok connector =>
        have hsn := handleServerEntry_nodup pn entryName selection connector
          acc.tools acc.prompts hat hap
        exact ih _ stack cache _ hc hsn.1 hsn.2
    · rw [if_neg hsrv]
      by_cases hprof : omapContains cfg.profiles entryName = true
      · rw [if_pos hprof]
        have hchild := hrec entryName stack cache hc
        cases hres : (rec entryName stack cache).result with
        | error e =>
          refine ⟨hchild, ?_⟩
          intro r hr
          cases hr
        | ok nested =>
          have hmn := mergeNestedProfile_nodup selection nested acc.tools acc.prompts hat hap
          exact ih _ _ _ _ hchild hmn.1 hmn.2
      · rw [if_neg hprof]
        refine ⟨hc, ?_⟩
        intro r hr
        cases hr

theorem resolveRecursive_cached (cfg : Config) (reg : ConnectorRegistry)
    (fuel : Nat) (name : String) (stack : List String)
    (cache : OMap ResolutionResult) (cached : ResolutionResult)
    (h : omapFind? cache name = some cached) :
    resolveRecursive cfg reg (fuel + 1) name stack cache =
      ⟨.ok cached, cache, stack, []⟩ := by
  simp only [resolveRecursive, h]

theorem resolveRecursive_stackHit (cfg : Config) (reg : ConnectorRegistry)
    (fuel : Nat) (name : String) (stack : List String)
    (cache : OMap ResolutionResult)
    (h1 : omapFind? cache name = none) (h2 : stack.contains name = true) :
    resolveRecursive cfg reg (fuel + 1) name stack cache =
      ⟨.error ⟨.invalidRequest, "Circular profile reference detected: "
        ++ String.intercalate " -> " (stack ++ [name])⟩, cache, stack, []⟩ := by
  simp only [resolveRecursive, h1, h2, if_pos]

theorem resolveRecursive_unknownProfile (cfg : Config) (reg : ConnectorRegistry)
    (fuel : Nat) (name : String) (stack : List String)
    (cache : OMap ResolutionResult)
    (h1 : omapFind? cache name = none) (h2 : stack.contains name = false)
    (h3 : omapFind? cfg.profiles name = none) :
    resolveRecursive cfg reg (fuel + 1) name stack cache =
      ⟨.error ⟨.invalidRequest, "Unknown profile: " ++ name⟩, cache,
        (stack ++ [name]).dropLast, []⟩ := by
  simp only [resolveRecursive, h1, h3, h2, Bool.false_eq_true, if_false]

theorem resolveRecursive_entries_ok (cfg : Config) (reg : ConnectorRegistry)
    (fuel : Nat) (name : String) (stack : List String)
    (cache : OMap ResolutionResult) (pc : OMap ProfileConfig)
    (result : ResolutionResult)
    (h1 : omapFind? cache name = none) (h2 : stack.contains name = false)
    (h3 : omapFind? cfg.profiles name = some pc)
    (h4 : (resolveEntries cfg reg (resolveRecursive cfg reg fuel) name pc
      ⟨[], []⟩ (stack ++ [name]) cache []).result = .ok result) :
    resolveRecursive cfg reg (fuel + 1) name stack cache =
      ⟨.ok result,
        omapSet (resolveEntries cfg reg (resolveRecursive cfg reg fuel) name pc
          ⟨[], []⟩ (stack ++ [name]) cache []).cache name result,
        (resolveEntries cfg reg (resolveRecursive cfg reg fuel) name pc
          ⟨[], []⟩ (stack ++ [name]) cache []).stack.dropLast,
        (resolveEntries cfg reg (resolveRecursive cfg reg fuel) name pc
          ⟨[], []⟩ (stack ++ [name]) cache []).logs⟩ := by
  simp only [resolveRecursive, h1, h3, h2, Bool.false_eq_true, if_false, h4]

theorem resolveRecursive_entries_error (cfg : Config) (reg : ConnectorRegistry)
    (fuel : Nat) (name : String) (stack : List String)
    (cache : OMap ResolutionResult) (pc : OMap ProfileConfig) (e : McpError)
    (h1 : omapFind? cache name = none) (h2 : stack.contains name = false)
    (h3 : omapFind? cfg.profiles name = some pc)
    (h4 : (resolveEntries cfg reg (resolveRecursive cfg reg fuel) name pc
      ⟨[], []⟩ (stack ++ [name]) cache []).result = .error e) :
    resolveRecursive cfg reg (fuel + 1) name stack cache =
      ⟨.error e,
        (resolveEntries cfg reg (resolveRecursive cfg reg fuel) name pc
          ⟨[], []⟩ (stack ++ [name]) cache []).cache,
        (resolveEntries cfg reg (resolveRecursive cfg reg fuel) name pc
          ⟨[], []⟩ (stack ++ [name]) cache []).stack.dropLast,
        (resolveEntries cfg reg (resolveRecursive cfg reg fuel) name pc
          ⟨[], []⟩ (stack ++ [name]) cache []).logs⟩ := by
  simp only [resolveRecursive, h1, h3, h2, Bool.false_eq_true, if_false, h4]

theorem resolveRecursive_nodup_cacheOK (cfg : Config) (reg : ConnectorRegistry) :
    ∀ (fuel : Nat) (name : String) (stack : List String)
      (cache : OMap ResolutionResult), CacheOK cache →
      CacheOK (resolveRecursive cfg reg fuel name stack cache).cache ∧
      (∀ r, (resolveRecursive cfg reg fuel name stack cache).result = .ok r →
        NodupKeys r.tools ∧ NodupKeys r.prompts) := by
  intro fuel
  induction fuel with
  | zero =>
    intro name stack cache hc
    refine ⟨hc, ?_⟩
    intro r hr
    cases hr
  | succ fuel ih =>
    intro name stack cache hc
    cases hcached : omapFind? cache name with
    | some cached =>
      rw [resolveRecursive_cached cfg reg fuel name stack cache cached hcached]
      refine ⟨hc, ?_⟩
      intro r hr
      cases hr
      exact hc name cached hcached
    | none =>
      cases hstk : stack.contains name with
      | true =>
        rw [resolveRecursive_stackHit cfg reg fuel name stack cache hcached hstk]
        refine ⟨hc, ?_⟩
        intro r hr
        cases hr
      | false =>
        cases hpc : omapFind? cfg.profiles name with
        | none =>
          rw [resolveRecursive_unknownProfile cfg reg fuel name stack cache
            hcached hstk hpc]
          refine ⟨hc, ?_⟩
          intro r hr
          cases hr
        | some profileConfig =>
          have hout := resolveEntries_nodup_cacheOK cfg reg
            (resolveRecursive cfg reg fuel) name
            (fun n st c hcc => (ih n st c hcc).1)
            profileConfig ⟨[], []⟩ (stack ++ [name]) cache []
            hc List.nodup_nil List.nodup_nil
          cases hres : (resolveEntries cfg reg (resolveRecursive cfg reg fuel) name
              profileConfig ⟨[], []⟩ (stack ++ [name]) cache []).result with
          | ok result =>
            rw [resolveRecursive_entries_ok cfg reg fuel name stack cache
              profileConfig result hcached hstk hpc hres]
            have hrn := hout.2 result hres
            constructor
            · intro n r hfind
              rw [omapFind?_omapSet] at hfind
              by_cases hn : name = n
              · rw [if_pos hn] at hfind
                cases hfind
                exact hrn
              · rw [if_neg hn] at hfind
                exact hout.1 n r hfind
            · intro r hr
              cases hr
              exact hrn
          | error e =>
            rw [resolveRecursive_entries_error cfg reg fuel name stack cache
              profileConfig e hcached hstk hpc hres]
            refine ⟨hout.1, ?_⟩
            intro r hr
            cases hr

/-- C1: in every resolved profile the exported names are pairwise
distinct across tools and likewise across prompts; and when an exported
name is already taken, `mergeEntries` skips the later item, leaving the
first entry (its connector and original name included) unchanged. -/
theorem resolved_exported_names_unique
    (cfg : Config) (reg : ConnectorRegistry) (fuel : Nat) (name : String)
    (stack : List String) (cache : OMap ResolutionResult) (r : ResolutionResult)
    (hcache : CacheOK cache)
    (hok : (resolveRecursive cfg reg fuel name stack cache).result = .ok r) :
    (NodupKeys r.tools ∧ NodupKeys r.prompts) ∧
    (∀ (β γ : Type) (items : List β) (target : OMap γ)
      (al : Option (List String)) (pfx : String) (gn : β → String)
      (ce : β → String → γ) (k : String),
      omapContains target k = true →
      omapFind? (mergeEntries items target al pfx gn ce) k = omapFind? target k) := by
  refine ⟨(resolveRecursive_nodup_cacheOK cfg reg fuel name stack cache hcache).2 r hok, ?_⟩
  intro β γ items target al pfx gn ce k hk
  exact mergeEntries_find?_of_contains items target al pfx gn ce k hk

/-- Witness for C1 at scenario E's concrete resolution. -/
theorem resolved_exported_names_unique_witness :
    NodupKeys (([] : OMap ToolEntry)) ∧ NodupKeys (([] : OMap PromptEntry)) :=
  (resolved_exported_names_unique cfgScenarioE regScenarioE
    (resolveFuel cfgScenarioE) "default" [] [] ⟨[], []⟩ cacheOK_nil rfl).1

theorem contains_false_not_mem (l : List String) (a : String)
    (h : l.contains a = false) : a ∉ l := by
  induction l with
  | nil => exact List.not_mem_nil a
  | cons b rest ih =>
    rw [List.contains_cons] at h
    rcases Bool.or_eq_false_iff.mp h with ⟨h1, h2⟩
    intro hmem
    rcases List.mem_cons.mp hmem with rfl | hr
    · simp at h1
    · exact ih h2 hr

theorem resolveEntries_stack (cfg : Config) (reg : ConnectorRegistry)
    (rec : String → List String → OMap ResolutionResult → ResolveOut)
    (pn : String)
    (hrec : ∀ n st c, (rec n st c).stack = st) :
    ∀ (entries : List (String × ProfileConfig)) (acc : ResolutionResult)
      (stack : List String) (cache : OMap ResolutionResult) (logs : List LogRecord),
      (resolveEntries cfg reg rec pn entries acc stack cache logs).stack = stack := by
  intro entries
  induction entries with
  | nil => intro acc stack cache logs; rfl
  | cons entry rest ih =>
    intro acc stack cache logs
    obtain ⟨entryName, selection⟩ := entry
    simp only [resolveEntries]
    by_cases hsrv : omapContains cfg.mcpServers entryName = true
    · rw [if_pos hsrv]
      cases hget : registryGet reg entryName with
      | error e => rfl
      | ok connector => exact ih _ _ _ _
    · rw [if_neg hsrv]
      by_cases hprof : omapContains cfg.profiles entryName = true
      · rw [if_pos hprof]
        cases hres : (rec entryName stack cache).result with
        | error e => exact hrec entryName stack cache
        | ok nested => rw [ih _ _ _ _, hrec entryName stack cache]
      · rw [if_neg hprof]

theorem resolveRecursive_stack (cfg : Config) (reg : ConnectorRegistry) :
    ∀ (fuel : Nat) (name : String) (stack : List String)
      (cache : OMap ResolutionResult),
      (resolveRecursive cfg reg fuel name stack cache).stack = stack := by
  intro fuel
  induction fuel with
  | zero => intro name stack cache; rfl
  | succ fuel ih =>
    intro name stack cache
    cases hcached : omapFind? cache name with
    | some cached => rw [resolveRecursive_cached cfg reg fuel name stack cache cached hcached]
    | none =>
      cases hstk : stack.contains name with
      | true => rw [resolveRecursive_stackHit cfg reg fuel name stack cache hcached hstk]
      | false =>
        have hstack : ∀ pc, (resolveEntries cfg reg (resolveRecursive cfg reg fuel)
            name pc ⟨[], []⟩ (stack ++ [name]) cache []).stack = stack ++ [name] :=
          fun pc => resolveEntries_stack cfg reg _ name ih pc ⟨[], []⟩ _ cache []
        cases hpc : omapFind? cfg.profiles name with
        | none =>
          rw [resolveRecursive_unknownProfile cfg reg fuel name stack cache
            hcached hstk hpc]
          rw [List.dropLast_concat]
        | some pc =>
          cases hres : (resolveEntries cfg reg (resolveRecursive cfg reg fuel) name pc
              ⟨[], []⟩ (stack ++ [name]) cache []).result with
          | ok result =>
            rw [resolveRecursive_entries_ok cfg reg fuel name stack cache pc result
              hcached hstk hpc hres]
            rw [hstack pc, List.dropLast_concat]
          | error e =>
            rw [resolveRecursive_entries_error cfg reg fuel name stack cache pc e
              hcached hstk hpc hres]
            rw [hstack pc, List.dropLast_concat]

theorem resolveEntries_cache_preserves (cfg : Config) (reg : ConnectorRegistry)
    (rec : String → List String → OMap ResolutionResult → ResolveOut)
    (pn : String)
    (hrecs : ∀ n st c, (rec n st c).stack = st)
    (hrecc : ∀ n st c m, m ∈ st →
      omapFind? (rec n st c).cache m = omapFind? c m) :
    ∀ (entries : List (String × ProfileConfig)) (acc : ResolutionResult)
      (stack : List String) (cache : OMap ResolutionResult) (logs : List LogRecord)
      (m : String), m ∈ stack →
      omapFind? (resolveEntries cfg reg rec pn entries acc stack cache logs).cache m =
        omapFind? cache m := by
  intro entries
  induction entries with
  | nil => intro acc stack cache logs m hm; rfl
  | cons entry rest ih =>
    intro acc stack cache logs m hm
    obtain ⟨entryName, selection⟩ := entry
    simp only [resolveEntries]
    by_cases hsrv : omapContains cfg.mcpServers entryName = true
    · rw [if_pos hsrv]
      cases hget : registryGet reg entryName with
      | error e => rfl
      | ok connector => exact ih _ _ _ _ m hm
    · rw [if_neg hsrv]
      by_cases hprof : omapContains cfg.profiles entryName = true
      · rw [if_pos hprof]
        cases hres : (rec entryName stack cache).result with
        | error e => exact hrecc entryName stack cache m hm
        | ok nested =>
          rw [ih _ _ _ _ m (by rw [hrecs entryName stack cache]; exact hm)]
          exact hrecc entryName stack cache m hm
      · rw [if_neg hprof]

theorem resolveRecursive_cache_stackMember (cfg : Config) (reg : ConnectorRegistry) :
    ∀ (fuel : Nat) (name : String) (stack : List String)
      (cache : OMap ResolutionResult) (m : String), m ∈ stack →
      omapFind? (resolveRecursive cfg reg fuel name stack cache).cache m =
        omapFind? cache m := by
  intro fuel
  induction fuel with
  | zero => intro name stack cache m hm; rfl
  | succ fuel ih =>
    intro name stack cache m hm
    cases hcached : omapFind? cache name with
    | some cached =>
      rw [resolveRecursive_cached cfg reg fuel name stack cache cached hcached]
    | none =>
      cases hstk : stack.contains name with
      | true => rw [resolveRecursive_stackHit cfg reg fuel name stack cache hcached hstk]
      | false =>
        have hmem : m ∈ stack ++ [name] := List.mem_append_left _ hm
        have hpres : ∀ pc, omapFind? (resolveEntries cfg reg (resolveRecursive cfg reg fuel)
            name pc ⟨[], []⟩ (stack ++ [name]) cache []).cache m = omapFind? cache m :=
          fun pc => resolveEntries_cache_preserves cfg reg _ name
            (resolveRecursive_stack cfg reg fuel) (ih) pc ⟨[], []⟩ _ cache [] m hmem
        cases hpc : omapFind? cfg.profiles name with
        | none =>
          rw [resolveRecursive_unknownProfile cfg reg fuel name stack cache
            hcached hstk hpc]
        | some pc =>
          cases hres : (resolveEntries cfg reg (resolveRecursive cfg reg fuel) name pc
              ⟨[], []⟩ (stack ++ [name]) cache []).result with
          | ok result =>
            rw [resolveRecursive_entries_ok cfg reg fuel name stack cache pc result
              hcached hstk hpc hres]
            have hne : name ≠ m := by
              intro heq
              exact contains_false_not_mem stack name hstk (heq ▸ hm)
            rw [omapFind?_omapSet, if_neg hne]
            exact hpres pc
          | error e =>
            rw [resolveRecursive_entries_error cfg reg fuel name stack cache pc e
              hcached hstk hpc hres]
            exact hpres pc

theorem resolveRecursive_cache_self_on_error (cfg : Config) (reg : ConnectorRegistry) :
    ∀ (fuel : Nat) (name : String) (stack : List String)
      (cache : OMap ResolutionResult) (e : McpError),
      (resolveRecursive cfg reg fuel name stack cache).result = .error e →
      omapFind? (resolveRecursive cfg reg fuel name stack cache).cache name =
        omapFind? cache name := by
  intro fuel name stack cache e herr
  cases fuel with
  | zero => rfl
  | succ fuel =>
    cases hcached : omapFind? cache name with
    | some cached =>
      rw [resolveRecursive_cached cfg reg fuel name stack cache cached hcached]
      exact hcached
    | none =>
      cases hstk : stack.contains name with
      | true =>
        rw [resolveRecursive_stackHit cfg reg fuel name stack cache hcached hstk]
        exact hcached
      | false =>
        cases hpc : omapFind? cfg.profiles name with
        | none =>
          rw [resolveRecursive_unknownProfile cfg reg fuel name stack cache
            hcached hstk hpc]
          exact hcached
        | some pc =>
          cases hres : (resolveEntries cfg reg (resolveRecursive cfg reg fuel) name pc
              ⟨[], []⟩ (stack ++ [name]) cache []).result with
          | ok result =>
            rw [resolveRecursive_entries_ok cfg reg fuel name stack cache pc result
              hcached hstk hpc hres] at herr
            cases herr
          | error e2 =>
            rw [resolveRecursive_entries_error cfg reg fuel name stack cache pc e2
              hcached hstk hpc hres]
            rw [resolveEntries_cache_preserves cfg reg _ name
              (resolveRecursive_stack cfg reg fuel)
              (resolveRecursive_cache_stackMember cfg reg fuel) pc ⟨[], []⟩ _ cache []
              name (List.mem_append_right _ (List.mem_singleton.mpr rfl))]
            exact hcached

/-- The configuration of the C10 counterexample: profile `bad` resolves
`sub` successfully (logging one warning, since `alpha` fails to
initialise) and then throws on its unknown entry `bogus`; profile `good`
also uses `sub`. -/
def cfgPartial : Config :=
  ⟨"localhost:3003", [("alpha", .http ⟨"https://alpha.example", none⟩)],
    [("sub", [("alpha", emptySelection)]),
     ("bad", [("sub", emptySelection), ("bogus", emptySelection)]),
     ("good", [("sub", emptySelection)])]⟩

/-- The registry of the C10 counterexample. -/
def regPartial : ConnectorRegistry := [("alpha", alphaFailing)]

/-- C10 counterexample: a failed `resolve("bad")` leaves `sub` cached, so
a later `resolve("good")` on the same resolver emits no warning, while on
a fresh resolver (as if the failed call had never happened) it emits one:
the later resolve does not behave exactly as if the failed call had never
happened. -/
theorem resolver_failure_not_transparent :
    (resolve cfgPartial regPartial [] "bad").result =
      .error ⟨.invalidRequest,
        "Unknown server or profile 'bogus' referenced by profile 'bad'"⟩ ∧
    (resolve cfgPartial regPartial (resolve cfgPartial regPartial [] "bad").cache
      "good").logs = [] ∧
    (resolve cfgPartial regPartial [] "good").logs =
      [⟨some "boom", some "alpha", "sub", "Failed to initialize connector"⟩] := by
  exact ⟨rfl, rfl, rfl⟩

/-- C10 (amended): the resolver is atomic on failure in the sense that
the visited stack is always restored to its pre-call state and, when the
call throws, neither the profile being resolved nor any profile on the
visited path gains a cache entry.  (Profiles that resolved successfully
during the failed call do remain cached — see the counterexample — so a
later resolve is only guaranteed to agree on results, not on logging.) -/
theorem resolver_atomicity
    (cfg : Config) (reg : ConnectorRegistry) (fuel : Nat) (name : String)
    (stack : List String) (cache : OMap ResolutionResult) :
    ((resolveRecursive cfg reg fuel name stack cache).stack = stack) ∧
    (∀ e, (resolveRecursive cfg reg fuel name stack cache).result = .error e →
      ∀ m, m ∈ stack ∨ m = name →
        omapFind? (resolveRecursive cfg reg fuel name stack cache).cache m =
          omapFind? cache m) := by
  refine ⟨resolveRecursive_stack cfg reg fuel name stack cache, ?_⟩
  intro e herr m hm
  rcases hm with hm | rfl
  · exact resolveRecursive_cache_stackMember cfg reg fuel name stack cache m hm
  · exact resolveRecursive_cache_self_on_error cfg reg fuel m stack cache e herr

/-- Witness for C10's amended theorem: after the failed `resolve("bad")`
there is no cache entry for `bad`. -/
theorem resolver_atomicity_witness :
    omapFind? (resolve cfgPartial regPartial [] "bad").cache "bad" =
      omapFind? ([] : OMap ResolutionResult) "bad" :=
  (resolver_atomicity cfgPartial regPartial (resolveFuel cfgPartial) "bad" [] []).2
    ⟨.invalidRequest, "Unknown server or profile 'bogus' referenced by profile 'bad'"⟩
    rfl "bad" (Or.inr rfl)

theorem cmRun_cleanedUp (s : CMState) (cause : Option String)
    (h : s.cleanedUp = true) : cmRun s cause = (s, []) := by
  unfold cmRun
  rw [if_pos h]

theorem cmRun_fresh (regs : List Nat) (watched : List (Nat × String))
    (cause : Option String) :
    cmRun ⟨false, regs, watched⟩ cause =
      (⟨true, regs, []⟩,
        (match cause with | some _ => [CMEffect.warnCause] | none => [])
          ++ watched.map (fun l => CMEffect.detach l.1 l.2)
          ++ regs.map CMEffect.invoke) := by
  unfold cmRun
  rw [if_neg (by exact Bool.false_ne_true)]

theorem cmEmit_foldl_cleanedUp (l : List (Nat × String)) (arg : Option String) :
    ∀ (s : CMState) (eff : List CMEffect), s.cleanedUp = true →
      l.foldl (fun acc _ => let r := cmRun acc.1 arg; (r.1, acc.2 ++ r.2))
        (s, eff) = (s, eff) := by
  induction l with
  | nil => intro s eff h; rfl
  | cons x rest ih =>
    intro s eff h
    simp only [List.foldl_cons, cmRun_cleanedUp _ _ h, List.append_nil]
    exact ih s eff h

theorem cmStep_cleanedUp (s : CMState) (op : CMOp) (h : s.cleanedUp = true) :
    (cmStep s op).2 = [] ∧ (cmStep s op).1.cleanedUp = true := by
  cases op with
  | register cb => exact ⟨rfl, h⟩
  | watchEmitter em events =>
    cases em with
    | none => exact ⟨rfl, h⟩
    | some e => exact ⟨rfl, h⟩
  | runOp cause =>
    simp only [cmStep]
    rw [cmRun_cleanedUp s cause h]
    exact ⟨rfl, h⟩
  | emit em ev arg =>
    simp only [cmStep]
    rw [cmEmit_foldl_cleanedUp _ arg s [] h]
    exact ⟨rfl, h⟩

theorem cmFold_cleanedUp (ops : List CMOp) :
    ∀ s : CMState, s.cleanedUp = true →
      (cmFold s ops).2 = [] ∧ (cmFold s ops).1.cleanedUp = true := by
  induction ops with
  | nil => intro s h; exact ⟨rfl, h⟩
  | cons op rest ih =>
    intro s h
    obtain ⟨h1, h2⟩ := cmStep_cleanedUp s op h
    obtain ⟨h3, h4⟩ := ih (cmStep s op).1 h2
    simp only [cmFold]
    rw [h1, h3]
    exact ⟨rfl, h4⟩

theorem cmFold_spec (ops : List CMOp) :
    ∀ (regs : List Nat) (watched : List (Nat × String)),
      (cmFold ⟨false, regs, watched⟩ ops).2 = cmSpecTrace ops regs watched := by
  induction ops with
  | nil => intro regs watched; rfl
  | cons op rest ih =>
    intro regs watched
    cases op with
    | register cb =>
      simp only [cmFold, cmStep, cmSpecTrace, List.nil_append]
      exact ih (regs ++ [cb]) watched
    | watchEmitter em events =>
      cases em with
      | none =>
        simp only [cmFold, cmStep, cmSpecTrace, List.nil_append]
        exact ih regs watched
      | some e =>
        simp only [cmFold, cmStep, cmSpecTrace, List.nil_append]
        exact ih regs (watched ++ events.map (fun ev => (e, ev)))
    | runOp cause =>
      simp only [cmFold, cmStep, cmRun_fresh, cmSpecTrace]
      rw [(cmFold_cleanedUp rest ⟨true, regs, []⟩ rfl).1, List.append_nil]
    | emit em ev arg =>
      simp only [cmFold, cmStep, cmSpecTrace]
      cases hmatch : List.filter (fun l => l.1 == em && l.2 == ev) watched with
      | nil =>
        have hany : watched.any (fun l => l.1 == em && l.2 == ev) = false := by
          rw [List.any_eq_false]
          intro x hx hpred
          have hmem : x ∈ List.filter (fun l => l.1 == em && l.2 == ev) watched :=
            List.mem_filter.mpr ⟨hx, hpred⟩
          rw [hmatch] at hmem
          cases hmem
        rw [hany]
        simp only [Bool.false_eq_true, if_false, List.foldl_nil, List.nil_append]
        exact ih regs watched
      | cons x xs =>
        have hany : watched.any (fun l => l.1 == em && l.2 == ev) = true := by
          rw [List.any_eq_true]
          have hx : x ∈ List.filter (fun l => l.1 == em && l.2 == ev) watched := by
            rw [hmatch]
            exact List.mem_cons_self _ _
          exact ⟨x, (List.mem_filter.mp hx).1, (List.mem_filter.mp hx).2⟩
        rw [hany, if_pos rfl]
        simp only [List.foldl_cons, cmRun_fresh, List.nil_append]
        rw [cmEmit_foldl_cleanedUp xs arg ⟨true, regs, []⟩ _ rfl]
        rw [(cmFold_cleanedUp rest ⟨true, regs, []⟩ rfl).1, List.append_nil]

/-- C7: the trace of effects any operation sequence produces equals the
predicted trace: only the first triggering operation does cleanup work —
it detaches every recorded subscription (before any callback runs, as the
trace order shows) and invokes every callback registered before it,
exactly once across any number of `run()` calls and emitter events; and a
`run()` on an already-triggered manager performs no work at all. -/
theorem cleanup_runs_once (ops : List CMOp) (s : CMState) (cause : Option String)
    (h : s.cleanedUp = true) :
    (cmFold cmInit ops).2 = cmSpecTrace ops [] [] ∧ cmRun s cause = (s, []) :=
  ⟨cmFold_spec ops [] [], cmRun_cleanedUp s cause h⟩

/-- Witness for C7 at a concrete operation sequence: one registered
callback, one watched emitter, two events and one direct run — the
callback runs exactly once and the detach precedes the invoke. -/
theorem cleanup_runs_once_witness :
    (cmFold cmInit [CMOp.register 1, CMOp.watchEmitter (some 7) ["close"],
      CMOp.emit 7 "close" none, CMOp.runOp none, CMOp.emit 7 "close" none]).2 =
      [CMEffect.detach 7 "close", CMEffect.invoke 1] ∧
    cmRun ⟨true, [5], [(3, "close")]⟩ none = (⟨true, [5], [(3, "close")]⟩, []) := by
  have h := cleanup_runs_once [CMOp.register 1, CMOp.watchEmitter (some 7) ["close"],
    CMOp.emit 7 "close" none, CMOp.runOp none, CMOp.emit 7 "close" none]
    ⟨true, [5], [(3, "close")]⟩ none rfl
  exact ⟨h.1, h.2⟩

end Bento
